import Mathlib

/-!
Verification of the ocron scheduling core (src/task.rs, src/queue.rs, src/main.rs)
against its natural-language specification.

The development shallowly embeds the scheduler:
* `NTime` / `NDateTime` model chrono `NaiveTime` / `NaiveDateTime` (dates as a
  signed day count since 1970-01-01, the civil Gregorian calendar recovered by
  the standard days-to-civil conversion);
* `find_next_datetime`, `find_time`, `find_date` embed the two-phase search of
  `task.rs::find_next_datetime`, with the potential panics of slice indexing and
  `NaiveTime::from_hms` made explicit as the `panicked` / `FindResult.panic`
  outcomes;
* the queue of `queue.rs` (a `BinaryHeap` under the reversed `Ord` of
  `QueuedTask`) is modelled as a list with a pop that removes an entry maximal
  for that `Ord`, i.e. of minimal due instant;
* `runTrace` embeds the event order of `Task::run`, and `dispatcherStep` the
  body of the dispatch loop of `main.rs`.
-/

namespace Ocron

/-- Time of day, the fields of chrono `NaiveTime` as built by
`NaiveTime::from_hms(hour, minute, second)` (task.rs line 109). -/
structure NTime where
  hour : Nat
  minute : Nat
  second : Nat
deriving DecidableEq, Repr

/-- Seconds since midnight; chrono orders `NaiveTime` by this quantity. -/
def NTime.toSecs (t : NTime) : Nat :=
  t.hour * 3600 + t.minute * 60 + t.second

/-- chrono `NaiveDateTime`: a calendar date (here a signed count of days since
1970-01-01) paired with a time of day.  chrono orders it lexicographically by
(date, time). -/
structure NDateTime where
  date : Int
  time : NTime
deriving DecidableEq, Repr

/-- Boolean rendering of chrono's `NaiveDateTime` strict order (lexicographic
on date, then seconds of day). -/
def NDateTime.ltb (a b : NDateTime) : Bool :=
  decide (a.date < b.date) || (decide (a.date = b.date) && decide (a.time.toSecs < b.time.toSecs))

/-- Boolean rendering of chrono's `NaiveDateTime` order, non-strict version. -/
def NDateTime.leb (a b : NDateTime) : Bool :=
  decide (a.date < b.date) || (decide (a.date = b.date) && decide (a.time.toSecs ≤ b.time.toSecs))

/-- Days-to-civil conversion for the proleptic Gregorian calendar (the calendar
chrono implements): given a day count since 1970-01-01, produce
(year, month, day-of-month). -/
def civilOfDays (d : Int) : Int × Nat × Nat :=
  let z := d + 719468
  let era := Int.ediv z 146097
  let doe := (z - era * 146097).toNat
  let yoe := (doe - doe / 1460 + doe / 36524 - doe / 146096) / 365
  let doy := doe - (365 * yoe + yoe / 4 - yoe / 100)
  let mp := (5 * doy + 2) / 153
  let dayv := doy - (153 * mp + 2) / 5 + 1
  let m := if mp < 10 then mp + 3 else mp - 9
  ((yoe : Int) + era * 400 + (if m ≤ 2 then 1 else 0), m, dayv)

/-- chrono `Datelike::month` of a day count: 1..=12. -/
def monthOf (d : Int) : Nat := (civilOfDays d).2.1

/-- chrono `Datelike::day` of a day count: 1..=31. -/
def dayOf (d : Int) : Nat := (civilOfDays d).2.2

/-- chrono `Datelike::weekday` as `num_days_from_monday`: 0 = Monday .. 6 = Sunday.
1970-01-01 (day count 0) was a Thursday, 3 days from Monday. -/
def weekdayOf (d : Int) : Nat := ((d + 3).emod 7).toNat

/-- Validity condition of `NaiveTime::from_hms`: it panics unless
hour < 24, minute < 60 and second < 60. -/
def hmsValid (h m s : Nat) : Bool :=
  decide (h < 24) && decide (m < 60) && decide (s < 60)

/-- Outcome of the hour/minute/second scan of `find_next_datetime`
(task.rs lines 105-116): a panic of `from_hms`, no triple strictly after `now`,
or the first such triple. -/
inductive TimeSearch where
  | panicked : TimeSearch
  | missing : TimeSearch
  | foundTime : NTime → TimeSearch
deriving DecidableEq, Repr

/-- Innermost loop of task.rs lines 106-116: scan the `second` field-set for a
fixed hour and minute; `from_hms` runs (and can panic) before the comparison
with `now`. -/
def searchSecond (now : NTime) (h m : Nat) : List Nat → TimeSearch
  | [] => .missing
  | s :: rest =>
    if hmsValid h m s then
      if now.toSecs < NTime.toSecs ⟨h, m, s⟩ then .foundTime ⟨h, m, s⟩
      else searchSecond now h m rest
    else .panicked

/-- Middle loop of task.rs lines 106-116: scan the `minute` field-set. -/
def searchMinute (now : NTime) (h : Nat) (second : List Nat) : List Nat → TimeSearch
  | [] => .missing
  | m :: rest =>
    match searchSecond now h m second with
    | .panicked => .panicked
    | .foundTime t => .foundTime t
    | .missing => searchMinute now h second rest

/-- Outer loop of task.rs lines 106-116: scan the `hour` field-set. -/
def searchHour (now : NTime) (minute second : List Nat) : List Nat → TimeSearch
  | [] => .missing
  | h :: rest =>
    match searchMinute now h second minute with
    | .panicked => .panicked
    | .foundTime t => .foundTime t
    | .missing => searchHour now minute second rest

/-- Result of the time-of-day phase: a panic, or a chosen time of day together
with the number of days (0 or 1) the candidate date advances. -/
inductive TimePhase where
  | panicked : TimePhase
  | picked : NTime → Nat → TimePhase
deriving DecidableEq, Repr

/-- Fallback of task.rs lines 118-121, the `unwrap_or_else` closure: index
`hour[0]`, `minute[0]`, `second[0]` (panicking on an empty slice) and call
`from_hms` on them; the candidate date advances one day. -/
def fallbackTime : List Nat → List Nat → List Nat → TimePhase
  | h :: _, m :: _, s :: _ => if hmsValid h m s then .picked ⟨h, m, s⟩ 1 else .panicked
  | _, _, _ => .panicked

/-- Time-of-day phase of `find_next_datetime` (task.rs lines 105-121): the
triple scan, then the `unwrap_or_else` fallback. -/
def find_time (now : NTime) (second minute hour : List Nat) : TimePhase :=
  match searchHour now minute second hour with
  | .panicked => .panicked
  | .foundTime t => .picked t 0
  | .missing => fallbackTime hour minute second

/-- Date criterion of task.rs lines 127-129: each of the weekday / day / month
field-sets is either empty (wildcard) or must contain the date's component. -/
def matchesDate (weekday day month : List Nat) (d : Int) : Bool :=
  (weekday.isEmpty || weekday.contains (weekdayOf d))
  && (day.isEmpty || day.contains (dayOf d))
  && (month.isEmpty || month.contains (monthOf d))

/-- Bounded day scan of task.rs lines 126-134: starting at day `d`, try at most
`n` consecutive days, returning the first one matching `matchesDate`. -/
def find_date (weekday day month : List Nat) : Int → Nat → Option Int
  | _, 0 => none
  | d, n + 1 =>
    if matchesDate weekday day month d then some d
    else find_date weekday day month (d + 1) n

/-- Lookahead horizon of task.rs line 123. -/
def LOOKAHEAD : Nat := 366 * 4 * 7

/-- Overall outcome of `find_next_datetime`: a panic, the `bail!` error
("didn't find a date the next ... days"), or a found `NaiveDateTime`. -/
inductive FindResult where
  | panic : FindResult
  | noOccurrence : FindResult
  | found : NDateTime → FindResult
deriving DecidableEq, Repr

/-- task.rs `find_next_datetime`: the time-of-day phase on `now.time()` (with
`date` starting at `now.date()` and advanced by the phase's day offset),
followed by the bounded date scan. -/
def find_next_datetime (now : NDateTime) (second minute hour weekday day month : List Nat) :
    FindResult :=
  match find_time now.time second minute hour with
  | .panicked => .panic
  | .picked t off =>
    match find_date weekday day month (now.date + (off : Int)) LOOKAHEAD with
    | some d => .found ⟨d, t⟩
    | none => .noOccurrence

/-- Absolute second count of a `NaiveDateTime` (the quantity chrono duration
arithmetic acts on). -/
def NDateTime.toAbs (dt : NDateTime) : Int :=
  dt.date * 86400 + (dt.time.toSecs : Int)

/-- Rebuild a normalized `NaiveDateTime` from an absolute second count. -/
def NDateTime.ofAbs (n : Int) : NDateTime :=
  ⟨Int.ediv n 86400,
   ⟨(Int.emod n 86400).toNat / 3600, (Int.emod n 86400).toNat / 60 % 60, (Int.emod n 86400).toNat % 60⟩⟩

/-- chrono `NaiveDateTime + Duration` for a whole-second duration. -/
def NDateTime.addSecs (dt : NDateTime) (d : Int) : NDateTime :=
  NDateTime.ofAbs (dt.toAbs + d)

/-- config.rs `Time`: the three timing rules.  `on` carries the six field-sets
(second, minute, hour, weekday, day, month); `every` / `after` carry a duration
in whole seconds (config.rs builds them from seconds/minutes/hours/days/weeks,
all whole-second). -/
inductive Time where
  | on : List Nat → List Nat → List Nat → List Nat → List Nat → List Nat → Time
  | every : Int → Time
  | after : Int → Time
deriving DecidableEq, Repr

/-- task.rs `Time::next_run`, with the `Local::now()` sample made explicit as
the `now` argument: `After`/`Every` yield `now + duration`, `On` runs
`find_next_datetime`. -/
def Time.next_run (t : Time) (now : NDateTime) : FindResult :=
  match t with
  | .after d => .found (now.addSecs d)
  | .every d => .found (now.addSecs d)
  | .on s m h w dy mo => find_next_datetime now s m h w dy mo

/-- Discriminator: is the rule the `After` variant (task.rs lines 42 and 56
branch on exactly this). -/
def Time.isAfterRule : Time → Bool
  | .after _ => true
  | _ => false

/-- Observable events of one execution unit (the closure spawned by
`Task::run`, task.rs lines 39-61), in program order. -/
inductive REvent where
  | logRunning : REvent
  | push : NDateTime → REvent
  | rearmFailed : REvent
  | spawned : REvent
  | spawnFailed : REvent
  | exited : REvent
  | waitFailed : REvent
deriving DecidableEq, Repr

/-- Events of one `next_run().log_error().map(|next| queue.notify_push(..))`
re-arm: a push of the computed instant on success, a logged error otherwise. -/
def rearmEvents (t : Time) (now : NDateTime) : List REvent :=
  match t.next_run now with
  | .found next => [.push next]
  | _ => [.rearmFailed]

/-- Events of the spawn-and-wait block of task.rs lines 48-54: a successful
spawn followed by the wait outcome, or a failed (and logged) spawn. -/
def spawnEvents (spawnOk waitOk : Bool) : List REvent :=
  if spawnOk then REvent.spawned :: (if waitOk then [REvent.exited] else [REvent.waitFailed])
  else [REvent.spawnFailed]

/-- Event trace of the execution unit of `Task::run` (task.rs lines 39-61).
`tPre` and `tPost` are the wall-clock instants sampled by the `Local::now()`
call inside the pre-spawn re-arm (lines 42-46) and the post-wait re-arm
(lines 56-60) respectively; `spawnOk` / `waitOk` are the outcomes of
`command.spawn()` and `child.wait()`.  Note the post block runs for `After`
rules regardless of the spawn outcome. -/
def runTrace (time : Time) (tPre tPost : NDateTime) (spawnOk waitOk : Bool) : List REvent :=
  [REvent.logRunning]
  ++ (match time with
      | .on _ _ _ _ _ _ => rearmEvents time tPre
      | .every _ => rearmEvents time tPre
      | .after _ => [])
  ++ spawnEvents spawnOk waitOk
  ++ (match time with
      | .after _ => rearmEvents time tPost
      | _ => [])

/-- Event classifier: a `notify_push` onto the due-time queue. -/
def isPush : REvent → Bool
  | .push _ => true
  | _ => false

/-- Event classifier: the `command.spawn()` call (either outcome). -/
def isSpawnAttempt : REvent → Bool
  | .spawned => true
  | .spawnFailed => true
  | _ => false

/-- Event classifier: the child process exited (`child.wait()` succeeded). -/
def isExited : REvent → Bool
  | .exited => true
  | _ => false

/-- Event classifier: `command.spawn()` failed. -/
def isSpawnFailed : REvent → Bool
  | .spawnFailed => true
  | _ => false

/-- Instants pushed onto the queue during a trace, in order. -/
def pushedTimes (l : List REvent) : List NDateTime :=
  l.filterMap fun e => match e with
    | .push t => some t
    | _ => none

/-- Ordering of event kinds in a trace: no `early`-event occurs after any
`late`-event, i.e. every `early`-event precedes every `late`-event. -/
def eventsOrdered (early late : REvent → Bool) (l : List REvent) : Prop :=
  ∀ pre post, l = pre ++ post → pre.any late = true → post.any early = true → False

/-- queue.rs `QueuedTask`: a due instant and (a stand-in identifier for) the
shared task it schedules. -/
structure QueuedTask where
  time : NDateTime
  task : Nat
deriving DecidableEq, Repr

/-- Three-way comparison on `Int` (chrono's `Ord` on the date component). -/
def cmpI (a b : Int) : Ordering :=
  if a < b then .lt else if b < a then .gt else .eq

/-- Three-way comparison on `Nat` (chrono's `Ord` on seconds of day). -/
def cmpN (a b : Nat) : Ordering :=
  if a < b then .lt else if b < a then .gt else .eq

/-- chrono `NaiveDateTime::cmp`: lexicographic on (date, time of day). -/
def NDateTime.cmp (a b : NDateTime) : Ordering :=
  match cmpI a.date b.date with
  | .eq => cmpN a.time.toSecs b.time.toSecs
  | o => o

/-- queue.rs lines 32-36, `Ord for QueuedTask`: the `NaiveDateTime` order of the
due instants, reversed (so the std `BinaryHeap`, a max-heap, yields the
smallest instant first). -/
def QueuedTask.cmp (a b : QueuedTask) : Ordering :=
  (NDateTime.cmp a.time b.time).swap

/-- Model of `BinaryHeap::pop` on the queue contents: remove an element maximal
for `QueuedTask.cmp`, i.e. of minimal due instant (ties between equal instants
are heap-internal; the model keeps the earliest-listed one). -/
def popMin : List QueuedTask → Option (QueuedTask × List QueuedTask)
  | [] => none
  | x :: xs =>
    match popMin xs with
    | none => some (x, [])
    | some (y, ys) => if QueuedTask.cmp x y = .lt then some (y, x :: ys) else some (x, xs)

/-- queue.rs `Queue::try_pop`: pop the heap and keep the task, with the
post-state of the queue made explicit. -/
def Queue.try_pop (l : List QueuedTask) : Option (Nat × List QueuedTask) :=
  (popMin l).map fun er => (er.1.task, er.2)

/-- Instants obtained by popping the queue repeatedly until it is empty
(`n` is fuel, instantiated with the queue length). -/
def drainAux : Nat → List QueuedTask → List NDateTime
  | 0, _ => []
  | n + 1, l =>
    match popMin l with
    | none => []
    | some (e, rest) => e.time :: drainAux n rest

/-- Instants popped by draining the queue with sequential `try_pop` calls. -/
def drainTimes (l : List QueuedTask) : List NDateTime :=
  drainAux l.length l

/-- main.rs lines 80-83: clamp `x` into `[lo, hi]`. -/
def clampI (x lo hi : Int) : Int :=
  min hi (max lo x)

/-- Sleep duration (milliseconds) of main.rs lines 85-95:
`clamp((peek - now).to_std().unwrap_or(1s) / 2, 1s, 60s)`; `to_std` fails
exactly when the difference is negative. -/
def sleepMs (peek now : NDateTime) : Int :=
  clampI ((if now.toAbs ≤ peek.toAbs then (peek.toAbs - now.toAbs) * 1000 else 1000) / 2) 1000 60000

/-- One decision of the dispatcher loop: pop-and-dispatch (no sleep), or sleep
for the given number of milliseconds. -/
inductive DispatchStep where
  | dispatch : QueuedTask → List QueuedTask → DispatchStep
  | sleepFor : Int → DispatchStep
deriving DecidableEq, Repr

/-- Body of the dispatch loop of main.rs lines 72-96 for one wall-clock sample
`now`: peek the smallest pending instant (blocking on an empty queue, modelled
as `none`); if it is strictly before `now` (`wait_peek_time() < now`, line 73)
pop and dispatch without sleeping, otherwise sleep the clamped duration. -/
def dispatcherStep (q : List QueuedTask) (now : NDateTime) : Option DispatchStep :=
  match popMin q with
  | none => none
  | some (e, rest) =>
    if e.time.ltb now then some (.dispatch e rest)
    else some (.sleepFor (sleepMs e.time now))

/-- Holder of the queue's mutex. -/
inductive LockSt where
  | free : LockSt
  | consumerHolds : LockSt
  | producerHolds : LockSt
deriving DecidableEq, Repr

/-- Program counter of a consumer running `Queue::wait_peek_time`
(queue.rs lines 52-58): acquire `self.queue.lock()`; check
`queue_lock.is_empty()`; park in `condvar.wait` (which releases the lock
atomically); on wakeup reacquire the lock (inside `wait`) and recheck; finally
peek and return (dropping the guard). -/
inductive CPC where
  | acquiring : CPC
  | checking : CPC
  | parked : CPC
  | reacquiring : CPC
  | peeking : CPC
  | returned : CPC
deriving DecidableEq, Repr

/-- Program counter of a producer running `Queue::notify_push`
(queue.rs lines 46-50): acquire the lock, push, drop the guard (the guard is a
temporary, released before `notify_all`), then `condvar.notify_all`. -/
inductive PPC where
  | pAcquiring : PPC
  | pPushing : PPC
  | pReleasing : PPC
  | pNotifying : PPC
  | pDone : PPC
deriving DecidableEq, Repr

/-- Shared state of the queue plus the two thread program counters.  `woken`
records that a `notify_all` has been delivered to the parked consumer;
`result` is the value `wait_peek_time` returned, if it has. -/
structure SysState where
  heap : List QueuedTask
  lock : LockSt
  cpc : CPC
  woken : Bool
  ppc : PPC
  result : Option NDateTime
deriving DecidableEq, Repr

/-- Smallest pending instant of the queue contents (what `peek` returns under
the reversed `Ord`). -/
def minTimeOf (l : List QueuedTask) : Option NDateTime :=
  (popMin l).map fun er => er.1.time

/-- One atomic step of the consumer in `wait_peek_time`.  A blocked thread
(lock unavailable, or parked without a wakeup) leaves the state unchanged.
The `checking`-to-`parked` transition models the atomic release-and-park of
`Condvar::wait`. -/
def cstep (s : SysState) : SysState :=
  match s.cpc with
  | .acquiring => if s.lock = .free then { s with lock := .consumerHolds, cpc := .checking } else s
  | .checking =>
    if s.heap.isEmpty then { s with lock := .free, cpc := .parked }
    else { s with cpc := .peeking }
  | .parked => if s.woken then { s with cpc := .reacquiring, woken := false } else s
  | .reacquiring => if s.lock = .free then { s with lock := .consumerHolds, cpc := .checking } else s
  | .peeking => { s with result := minTimeOf s.heap, lock := .free, cpc := .returned }
  | .returned => s

/-- One atomic step of a producer running `notify_push e`.  `notify_all` wakes
the consumer exactly if it is currently parked (a notification with no waiter
is a no-op, as for `Condvar`). -/
def pstep (e : QueuedTask) (s : SysState) : SysState :=
  match s.ppc with
  | .pAcquiring => if s.lock = .free then { s with lock := .producerHolds, ppc := .pPushing } else s
  | .pPushing => { s with heap := s.heap ++ [e], ppc := .pReleasing }
  | .pReleasing => { s with lock := .free, ppc := .pNotifying }
  | .pNotifying =>
    if s.cpc = .parked then { s with woken := true, ppc := .pDone } else { s with ppc := .pDone }
  | .pDone => s

/-- Interleaved execution: `true` schedules the producer, `false` the consumer. -/
def sysStep (e : QueuedTask) (s : SysState) (who : Bool) : SysState :=
  if who then pstep e s else cstep s

/-- Run a schedule of thread interleavings from a state. -/
def sysRun (e : QueuedTask) (sched : List Bool) (s : SysState) : SysState :=
  sched.foldl (sysStep e) s

/-- Scenario of the no-lost-wakeup property: the queue is empty, the consumer
is already parked inside `wait_peek_time` (it held the lock, saw the queue
empty, and released-and-parked atomically), and a producer is about to run
`notify_push`. -/
def waitInit : SysState :=
  { heap := [], lock := .free, cpc := .parked, woken := false, ppc := .pAcquiring, result := none }

/-- States reachable in the no-lost-wakeup scenario: the producer walks
through `notify_push` while the consumer is parked, and after the wakeup the
consumer reacquires, rechecks non-emptiness, peeks and returns. -/
def wpInv (e : QueuedTask) (s : SysState) : Prop :=
  s = waitInit ∨
  s = { heap := [], lock := .producerHolds, cpc := .parked, woken := false,
        ppc := .pPushing, result := none } ∨
  s = { heap := [e], lock := .producerHolds, cpc := .parked, woken := false,
        ppc := .pReleasing, result := none } ∨
  s = { heap := [e], lock := .free, cpc := .parked, woken := false,
        ppc := .pNotifying, result := none } ∨
  s = { heap := [e], lock := .free, cpc := .parked, woken := true,
        ppc := .pDone, result := none } ∨
  s = { heap := [e], lock := .free, cpc := .reacquiring, woken := false,
        ppc := .pDone, result := none } ∨
  s = { heap := [e], lock := .consumerHolds, cpc := .checking, woken := false,
        ppc := .pDone, result := none } ∨
  s = { heap := [e], lock := .consumerHolds, cpc := .peeking, woken := false,
        ppc := .pDone, result := none } ∨
  s = { heap := [e], lock := .free, cpc := .returned, woken := false,
        ppc := .pDone, result := some e.time }

/-- Lexicographic order on (hour, minute, second) triples, the enumeration
order the specification describes for the time-of-day phase. -/
def NTime.lexLe (a b : NTime) : Prop :=
  a.hour < b.hour ∨
    (a.hour = b.hour ∧ (a.minute < b.minute ∨ (a.minute = b.minute ∧ a.second ≤ b.second)))

theorem searchSecond_missing {now : NTime} {h m : Nat} :
    ∀ {ss : List Nat}, searchSecond now h m ss = .missing →
      ∀ s ∈ ss, NTime.toSecs ⟨h, m, s⟩ ≤ now.toSecs := by
  intro ss
  induction ss with
  | nil => intro _ s hs; cases hs
  | cons a rest ih =>
    intro hss s hs
    rw [searchSecond] at hss
    by_cases hv : hmsValid h m a
    · rw [if_pos hv] at hss
      by_cases hlt : now.toSecs < NTime.toSecs ⟨h, m, a⟩
      · rw [if_pos hlt] at hss; simp at hss
      · rw [if_neg hlt] at hss
        rcases List.mem_cons.mp hs with rfl | hs2
        · omega
        · exact ih hss s hs2
    · rw [if_neg hv] at hss; simp at hss

theorem searchSecond_found {now : NTime} {h m : Nat} {t : NTime} :
    ∀ {ss : List Nat}, searchSecond now h m ss = .foundTime t →
      t.hour = h ∧ t.minute = m ∧ t.second ∈ ss ∧ now.toSecs < t.toSecs := by
  intro ss
  induction ss with
  | nil => intro hss; simp [searchSecond] at hss
  | cons a rest ih =>
    intro hss
    rw [searchSecond] at hss
    by_cases hv : hmsValid h m a
    · rw [if_pos hv] at hss
      by_cases hlt : now.toSecs < NTime.toSecs ⟨h, m, a⟩
      · rw [if_pos hlt] at hss
        cases hss
        exact ⟨rfl, rfl, List.mem_cons_self a rest, hlt⟩
      · rw [if_neg hlt] at hss
        obtain ⟨h1, h2, h3, h4⟩ := ih hss
        exact ⟨h1, h2, List.mem_cons_of_mem a h3, h4⟩
    · rw [if_neg hv] at hss; simp at hss

theorem searchSecond_no_panic {now : NTime} {h m : Nat} (hh : h < 24) (hm : m < 60) :
    ∀ {ss : List Nat}, (∀ s ∈ ss, s < 60) → searchSecond now h m ss ≠ .panicked := by
  intro ss
  induction ss with
  | nil => intro _; simp [searchSecond]
  | cons a rest ih =>
    intro hs
    rw [searchSecond]
    have hv : hmsValid h m a = true := by
      simp only [hmsValid, Bool.and_eq_true, decide_eq_true_eq]
      exact ⟨⟨hh, hm⟩, hs a (List.mem_cons_self a rest)⟩
    rw [if_pos hv]
    by_cases hlt : now.toSecs < NTime.toSecs ⟨h, m, a⟩
    · rw [if_pos hlt]; simp
    · rw [if_neg hlt]
      exact ih fun s hs2 => hs s (List.mem_cons_of_mem a hs2)

theorem searchMinute_missing {now : NTime} {h : Nat} {ss : List Nat} :
    ∀ {ms : List Nat}, searchMinute now h ss ms = .missing →
      ∀ m ∈ ms, ∀ s ∈ ss, NTime.toSecs ⟨h, m, s⟩ ≤ now.toSecs := by
  intro ms
  induction ms with
  | nil => intro _ m hm; cases hm
  | cons a rest ih =>
    intro hms m hm s hs
    rw [searchMinute] at hms
    cases hsec : searchSecond now h a ss with
    | panicked => rw [hsec] at hms; simp at hms
    | foundTime t => rw [hsec] at hms; simp at hms
    | missing =>
      rw [hsec] at hms
      rcases List.mem_cons.mp hm with rfl | hm2
      · exact searchSecond_missing hsec s hs
      · exact ih hms m hm2 s hs

theorem searchMinute_found {now : NTime} {h : Nat} {ss : List Nat} {t : NTime} :
    ∀ {ms : List Nat}, searchMinute now h ss ms = .foundTime t →
      t.hour = h ∧ t.minute ∈ ms ∧ t.second ∈ ss ∧ now.toSecs < t.toSecs := by
  intro ms
  induction ms with
  | nil => intro hms; simp [searchMinute] at hms
  | cons a rest ih =>
    intro hms
    rw [searchMinute] at hms
    cases hsec : searchSecond now h a ss with
    | panicked => rw [hsec] at hms; simp at hms
    | foundTime u =>
      rw [hsec] at hms
      simp only [TimeSearch.foundTime.injEq] at hms
      subst hms
      obtain ⟨h1, h2, h3, h4⟩ := searchSecond_found hsec
      exact ⟨h1, h2 ▸ List.mem_cons_self a rest, h3, h4⟩
    | missing =>
      rw [hsec] at hms
      obtain ⟨h1, h2, h3, h4⟩ := ih hms
      exact ⟨h1, List.mem_cons_of_mem a h2, h3, h4⟩

theorem searchMinute_no_panic {now : NTime} {h : Nat} {ss : List Nat}
    (hh : h < 24) (hs : ∀ s ∈ ss, s < 60) :
    ∀ {ms : List Nat}, (∀ m ∈ ms, m < 60) → searchMinute now h ss ms ≠ .panicked := by
  intro ms
  induction ms with
  | nil => intro _; simp [searchMinute]
  | cons a rest ih =>
    intro hm
    rw [searchMinute]
    cases hsec : searchSecond now h a ss with
    | panicked =>
      exact absurd hsec (searchSecond_no_panic hh (hm a (List.mem_cons_self a rest)) hs)
    | foundTime t => simp
    | missing => exact ih fun m hm2 => hm m (List.mem_cons_of_mem a hm2)

theorem searchHour_missing {now : NTime} {ms ss : List Nat} :
    ∀ {hs : List Nat}, searchHour now ms ss hs = .missing →
      ∀ h ∈ hs, ∀ m ∈ ms, ∀ s ∈ ss, NTime.toSecs ⟨h, m, s⟩ ≤ now.toSecs := by
  intro hs
  induction hs with
  | nil => intro _ h hh; cases hh
  | cons a rest ih =>
    intro hhs h hh m hm s hsm
    rw [searchHour] at hhs
    cases hmin : searchMinute now a ss ms with
    | panicked => rw [hmin] at hhs; simp at hhs
    | foundTime t => rw [hmin] at hhs; simp at hhs
    | missing =>
      rw [hmin] at hhs
      rcases List.mem_cons.mp hh with rfl | hh2
      · exact searchMinute_missing hmin m hm s hsm
      · exact ih hhs h hh2 m hm s hsm

theorem searchHour_found {now : NTime} {ms ss : List Nat} {t : NTime} :
    ∀ {hs : List Nat}, searchHour now ms ss hs = .foundTime t →
      t.hour ∈ hs ∧ t.minute ∈ ms ∧ t.second ∈ ss ∧ now.toSecs < t.toSecs := by
  intro hs
  induction hs with
  | nil => intro hhs; simp [searchHour] at hhs
  | cons a rest ih =>
    intro hhs
    rw [searchHour] at hhs
    cases hmin : searchMinute now a ss ms with
    | panicked => rw [hmin] at hhs; simp at hhs
    | foundTime u =>
      rw [hmin] at hhs
      simp only [TimeSearch.foundTime.injEq] at hhs
      subst hhs
      obtain ⟨h1, h2, h3, h4⟩ := searchMinute_found hmin
      exact ⟨h1 ▸ List.mem_cons_self a rest, h2, h3, h4⟩
    | missing =>
      rw [hmin] at hhs
      obtain ⟨h1, h2, h3, h4⟩ := ih hhs
      exact ⟨List.mem_cons_of_mem a h1, h2, h3, h4⟩

theorem searchHour_no_panic {now : NTime} {ms ss : List Nat}
    (hm : ∀ m ∈ ms, m < 60) (hsr : ∀ s ∈ ss, s < 60) :
    ∀ {hs : List Nat}, (∀ h ∈ hs, h < 24) → searchHour now ms ss hs ≠ .panicked := by
  intro hs
  induction hs with
  | nil => intro _; simp [searchHour]
  | cons a rest ih =>
    intro hh
    rw [searchHour]
    cases hmin : searchMinute now a ss ms with
    | panicked =>
      exact absurd hmin (searchMinute_no_panic (hh a (List.mem_cons_self a rest)) hsr hm)
    | foundTime t => simp
    | missing => exact ih fun h hh2 => hh h (List.mem_cons_of_mem a hh2)

theorem searchSecond_found_min {now : NTime} {h m : Nat} {t : NTime} :
    ∀ {ss : List Nat}, List.Pairwise (· < ·) ss → searchSecond now h m ss = .foundTime t →
      ∀ s ∈ ss, now.toSecs < NTime.toSecs ⟨h, m, s⟩ → t.second ≤ s := by
  intro ss
  induction ss with
  | nil => intro _ hss; simp [searchSecond] at hss
  | cons a rest ih =>
    intro hp hss s hs hlt2
    rw [searchSecond] at hss
    by_cases hv : hmsValid h m a
    · rw [if_pos hv] at hss
      by_cases hlt : now.toSecs < NTime.toSecs ⟨h, m, a⟩
      · rw [if_pos hlt] at hss
        cases hss
        rcases List.mem_cons.mp hs with rfl | hs2
        · exact le_refl _
        · exact le_of_lt ((List.pairwise_cons.mp hp).1 s hs2)
      · rw [if_neg hlt] at hss
        rcases List.mem_cons.mp hs with rfl | hs2
        · exact absurd hlt2 hlt
        · exact ih (List.pairwise_cons.mp hp).2 hss s hs2 hlt2
    · rw [if_neg hv] at hss; simp at hss

theorem searchMinute_found_min {now : NTime} {h : Nat} {ss : List Nat} {t : NTime}
    (hps : List.Pairwise (· < ·) ss) :
    ∀ {ms : List Nat}, List.Pairwise (· < ·) ms → searchMinute now h ss ms = .foundTime t →
      ∀ m ∈ ms, ∀ s ∈ ss, now.toSecs < NTime.toSecs ⟨h, m, s⟩ →
        t.minute < m ∨ (t.minute = m ∧ t.second ≤ s) := by
  intro ms
  induction ms with
  | nil => intro _ hms; simp [searchMinute] at hms
  | cons a rest ih =>
    intro hp hms m hm s hs hlt
    rw [searchMinute] at hms
    cases hsec : searchSecond now h a ss with
    | panicked => rw [hsec] at hms; simp at hms
    | foundTime u =>
      rw [hsec] at hms
      simp only [TimeSearch.foundTime.injEq] at hms
      subst hms
      obtain ⟨_, hu2, _, _⟩ := searchSecond_found hsec
      rcases List.mem_cons.mp hm with rfl | hm2
      · exact Or.inr ⟨hu2, searchSecond_found_min hps hsec s hs hlt⟩
      · refine Or.inl ?_
        rw [hu2]
        exact (List.pairwise_cons.mp hp).1 m hm2
    | missing =>
      rw [hsec] at hms
      rcases List.mem_cons.mp hm with rfl | hm2
      · exact absurd hlt (by have := searchSecond_missing hsec s hs; omega)
      · exact ih (List.pairwise_cons.mp hp).2 hms m hm2 s hs hlt

theorem searchHour_found_min {now : NTime} {ms ss : List Nat} {t : NTime}
    (hpm : List.Pairwise (· < ·) ms) (hps : List.Pairwise (· < ·) ss) :
    ∀ {hl : List Nat}, List.Pairwise (· < ·) hl → searchHour now ms ss hl = .foundTime t →
      ∀ h ∈ hl, ∀ m ∈ ms, ∀ s ∈ ss, now.toSecs < NTime.toSecs ⟨h, m, s⟩ →
        NTime.lexLe t ⟨h, m, s⟩ := by
  intro hl
  induction hl with
  | nil => intro _ hhs; simp [searchHour] at hhs
  | cons a rest ih =>
    intro hp hhs h hh m hm s hsmem hlt
    rw [searchHour] at hhs
    cases hmin : searchMinute now a ss ms with
    | panicked => rw [hmin] at hhs; simp at hhs
    | foundTime u =>
      rw [hmin] at hhs
      simp only [TimeSearch.foundTime.injEq] at hhs
      subst hhs
      obtain ⟨hu1, _, _, _⟩ := searchMinute_found hmin
      rcases List.mem_cons.mp hh with rfl | hh2
      · exact Or.inr ⟨hu1, searchMinute_found_min hps hpm hmin m hm s hsmem hlt⟩
      · refine Or.inl ?_
        rw [hu1]
        exact (List.pairwise_cons.mp hp).1 h hh2
    | missing =>
      rw [hmin] at hhs
      rcases List.mem_cons.mp hh with rfl | hh2
      · exact absurd hlt (by have := searchMinute_missing hmin m hm s hsmem; omega)
      · exact ih (List.pairwise_cons.mp hp).2 hhs h hh2 m hm s hsmem hlt

theorem pairwise_head_le {a : Nat} {l : List Nat} (hp : List.Pairwise (· < ·) (a :: l)) :
    ∀ x ∈ a :: l, a ≤ x := by
  intro x hx
  rcases List.mem_cons.mp hx with rfl | hx2
  · exact le_refl _
  · exact le_of_lt ((List.pairwise_cons.mp hp).1 x hx2)

theorem find_time_picked {now : NTime} {second minute hour : List Nat} {t : NTime} {off : Nat}
    (h : find_time now second minute hour = .picked t off) :
    t.hour ∈ hour ∧ t.minute ∈ minute ∧ t.second ∈ second ∧
      ((off = 0 ∧ now.toSecs < t.toSecs) ∨ off = 1) := by
  rw [find_time] at h
  cases hsh : searchHour now minute second hour with
  | panicked => rw [hsh] at h; simp at h
  | foundTime u =>
    rw [hsh] at h
    simp only [TimePhase.picked.injEq] at h
    obtain ⟨rfl, rfl⟩ := h
    obtain ⟨h1, h2, h3, h4⟩ := searchHour_found hsh
    exact ⟨h1, h2, h3, Or.inl ⟨rfl, h4⟩⟩
  | missing =>
    rw [hsh] at h
    rcases hour with _ | ⟨hd, hr⟩
    · simp [fallbackTime] at h
    rcases minute with _ | ⟨md, mr⟩
    · simp [fallbackTime] at h
    rcases second with _ | ⟨sd, sr⟩
    · simp [fallbackTime] at h
    rw [fallbackTime] at h
    by_cases hv : hmsValid hd md sd
    · rw [if_pos hv] at h
      simp only [TimePhase.picked.injEq] at h
      obtain ⟨rfl, rfl⟩ := h
      exact ⟨List.mem_cons_self hd hr, List.mem_cons_self md mr,
        List.mem_cons_self sd sr, Or.inr rfl⟩
    · rw [if_neg hv] at h; simp at h

theorem find_time_no_panic {now : NTime} {second minute hour : List Nat}
    (hs : second ≠ []) (hm : minute ≠ []) (hh : hour ≠ [])
    (hs60 : ∀ s ∈ second, s < 60) (hm60 : ∀ m ∈ minute, m < 60) (hh24 : ∀ h ∈ hour, h < 24) :
    ∃ t off, find_time now second minute hour = .picked t off := by
  rw [find_time]
  cases hsh : searchHour now minute second hour with
  | panicked => exact absurd hsh (searchHour_no_panic hm60 hs60 hh24)
  | foundTime u => exact ⟨u, 0, rfl⟩
  | missing =>
    rcases hour with _ | ⟨hd, hr⟩
    · exact absurd rfl hh
    rcases minute with _ | ⟨md, mr⟩
    · exact absurd rfl hm
    rcases second with _ | ⟨sd, sr⟩
    · exact absurd rfl hs
    have hv : hmsValid hd md sd = true := by
      simp only [hmsValid, Bool.and_eq_true, decide_eq_true_eq]
      exact ⟨⟨hh24 hd (List.mem_cons_self hd hr), hm60 md (List.mem_cons_self md mr)⟩,
        hs60 sd (List.mem_cons_self sd sr)⟩
    rw [fallbackTime, if_pos hv]
    exact ⟨⟨hd, md, sd⟩, 1, rfl⟩

theorem find_date_some {w dy mo : List Nat} {x : Int} :
    ∀ {n : Nat} {d : Int}, find_date w dy mo d n = some x →
      d ≤ x ∧ x < d + n ∧ matchesDate w dy mo x = true := by
  intro n
  induction n with
  | zero => intro d h; simp [find_date] at h
  | succ k ih =>
    intro d h
    rw [find_date] at h
    by_cases hm : matchesDate w dy mo d
    · rw [if_pos hm] at h
      cases h
      refine ⟨le_refl _, by omega, hm⟩
    · rw [if_neg hm] at h
      obtain ⟨h1, h2, h3⟩ := ih h
      refine ⟨by omega, by push_cast at h2 ⊢; omega, h3⟩

theorem find_date_none_iff {w dy mo : List Nat} :
    ∀ {n : Nat} {d : Int}, (find_date w dy mo d n = none ↔
      ∀ i : Nat, i < n → matchesDate w dy mo (d + i) = false) := by
  intro n
  induction n with
  | zero => intro d; simp [find_date]
  | succ k ih =>
    intro d
    rw [find_date]
    by_cases hm : matchesDate w dy mo d
    · rw [if_pos hm]
      simp only [reduceCtorEq, false_iff, not_forall]
      exact ⟨0, by omega, by simpa using hm⟩
    · rw [if_neg hm]
      rw [ih]
      constructor
      · intro hall i hi
        match i with
        | 0 => simpa using Bool.not_eq_true _ ▸ by simpa using hm
        | j + 1 =>
          have := hall j (by omega)
          have harith : d + 1 + (j : Int) = d + ((j + 1 : Nat) : Int) := by push_cast; ring
          rwa [harith] at this
      · intro hall i hi
        have := hall (i + 1) (by omega)
        have harith : d + 1 + (i : Int) = d + ((i + 1 : Nat) : Int) := by push_cast; ring
        rwa [← harith] at this

theorem matchesDate_mem {w dy mo : List Nat} {x : Int} (h : matchesDate w dy mo x = true) :
    (w ≠ [] → weekdayOf x ∈ w) ∧ (dy ≠ [] → dayOf x ∈ dy) ∧ (mo ≠ [] → monthOf x ∈ mo) := by
  simp only [matchesDate, Bool.and_eq_true, Bool.or_eq_true, List.isEmpty_iff] at h
  obtain ⟨⟨h1, h2⟩, h3⟩ := h
  refine ⟨fun hne => ?_, fun hne => ?_, fun hne => ?_⟩
  · rcases h1 with he | hc
    · exact absurd he hne
    · exact List.mem_of_elem_eq_true hc
  · rcases h2 with he | hc
    · exact absurd he hne
    · exact List.mem_of_elem_eq_true hc
  · rcases h3 with he | hc
    · exact absurd he hne
    · exact List.mem_of_elem_eq_true hc

/-- Claim C3: for an `On` rule with non-empty, sorted, deduplicated (strictly
increasing) and in-range second / minute / hour sets, the time-of-day phase
picks the lexicographically first (hour, minute, second) triple whose time of
day is strictly later than `now`'s, keeping the candidate date (day offset 0);
and when every triple is ≤ `now`'s time of day it picks the lexicographically
first triple overall and advances the candidate date by one day (offset 1). -/
theorem time_phase_lexicographic (now : NTime) (second minute hour : List Nat)
    (hs : second ≠ []) (hm : minute ≠ []) (hh : hour ≠ [])
    (hps : List.Pairwise (· < ·) second) (hpm : List.Pairwise (· < ·) minute)
    (hph : List.Pairwise (· < ·) hour)
    (hs60 : ∀ s ∈ second, s < 60) (hm60 : ∀ m ∈ minute, m < 60) (hh24 : ∀ h ∈ hour, h < 24) :
    ∃ t off, find_time now second minute hour = .picked t off ∧
      t.hour ∈ hour ∧ t.minute ∈ minute ∧ t.second ∈ second ∧
      ((off = 0 ∧ now.toSecs < t.toSecs ∧
          ∀ u : NTime, u.hour ∈ hour → u.minute ∈ minute → u.second ∈ second →
            now.toSecs < u.toSecs → NTime.lexLe t u) ∨
       (off = 1 ∧
          (∀ u : NTime, u.hour ∈ hour → u.minute ∈ minute → u.second ∈ second →
            u.toSecs ≤ now.toSecs) ∧
          ∀ u : NTime, u.hour ∈ hour → u.minute ∈ minute → u.second ∈ second →
            NTime.lexLe t u)) := by
  rw [find_time]
  cases hsh : searchHour now minute second hour with
  | panicked => exact absurd hsh (searchHour_no_panic hm60 hs60 hh24)
  | foundTime u =>
    obtain ⟨h1, h2, h3, h4⟩ := searchHour_found hsh
    refine ⟨u, 0, rfl, h1, h2, h3, Or.inl ⟨rfl, h4, ?_⟩⟩
    intro v hv1 hv2 hv3 hv4
    exact searchHour_found_min hpm hps hph hsh v.hour hv1 v.minute hv2 v.second hv3 hv4
  | missing =>
    rcases hour with _ | ⟨hd, hr⟩
    · exact absurd rfl hh
    rcases minute with _ | ⟨md, mr⟩
    · exact absurd rfl hm
    rcases second with _ | ⟨sd, sr⟩
    · exact absurd rfl hs
    have hv : hmsValid hd md sd = true := by
      simp only [hmsValid, Bool.and_eq_true, decide_eq_true_eq]
      exact ⟨⟨hh24 hd (List.mem_cons_self hd hr), hm60 md (List.mem_cons_self md mr)⟩,
        hs60 sd (List.mem_cons_self sd sr)⟩
    rw [fallbackTime, if_pos hv]
    refine ⟨⟨hd, md, sd⟩, 1, rfl, List.mem_cons_self hd hr, List.mem_cons_self md mr,
      List.mem_cons_self sd sr, Or.inr ⟨rfl, ?_, ?_⟩⟩
    · intro u hu1 hu2 hu3
      exact searchHour_missing hsh u.hour hu1 u.minute hu2 u.second hu3
    · intro u hu1 hu2 hu3
      simp only [NTime.lexLe]
      rcases lt_or_eq_of_le (pairwise_head_le hph u.hour hu1) with hlt | heq
      · exact Or.inl hlt
      · refine Or.inr ⟨heq, ?_⟩
        rcases lt_or_eq_of_le (pairwise_head_le hpm u.minute hu2) with hlt2 | heq2
        · exact Or.inl hlt2
        · exact Or.inr ⟨heq2, pairwise_head_le hps u.second hu3⟩

/-- Claim C3 witness: the specification's rollover vector hour={3}, minute={0},
second={0} at now = 05:00:00 — every triple is ≤ now, so the phase picks
03:00:00 and advances the date by one day. -/
theorem time_phase_lexicographic_witness :
    ∃ t off, find_time ⟨5, 0, 0⟩ [0] [0] [3] = .picked t off ∧
      t.hour ∈ [3] ∧ t.minute ∈ [0] ∧ t.second ∈ [0] ∧
      ((off = 0 ∧ NTime.toSecs ⟨5, 0, 0⟩ < t.toSecs ∧
          ∀ u : NTime, u.hour ∈ [3] → u.minute ∈ [0] → u.second ∈ [0] →
            NTime.toSecs ⟨5, 0, 0⟩ < u.toSecs → NTime.lexLe t u) ∨
       (off = 1 ∧
          (∀ u : NTime, u.hour ∈ [3] → u.minute ∈ [0] → u.second ∈ [0] →
            u.toSecs ≤ NTime.toSecs ⟨5, 0, 0⟩) ∧
          ∀ u : NTime, u.hour ∈ [3] → u.minute ∈ [0] → u.second ∈ [0] →
            NTime.lexLe t u)) :=
  time_phase_lexicographic ⟨5, 0, 0⟩ [0] [0] [3]
    (by decide) (by decide) (by decide) (by decide) (by decide) (by decide)
    (by decide) (by decide) (by decide)

/-- Claim C1: whenever `find_next_datetime` returns a result `r` for an `On`
rule and reference instant `now`, then `r ≥ now`, `r`'s hour, minute and second
belong to the rule's field-sets, and `r`'s weekday, day-of-month and month
belong to theirs whenever those sets are non-wildcard (non-empty). -/
theorem on_rule_result_bounds (now : NDateTime) (second minute hour weekday day month : List Nat)
    (r : NDateTime)
    (hr : find_next_datetime now second minute hour weekday day month = .found r) :
    NDateTime.leb now r = true ∧
    r.time.hour ∈ hour ∧ r.time.minute ∈ minute ∧ r.time.second ∈ second ∧
    (weekday ≠ [] → weekdayOf r.date ∈ weekday) ∧
    (day ≠ [] → dayOf r.date ∈ day) ∧
    (month ≠ [] → monthOf r.date ∈ month) := by
  rw [find_next_datetime] at hr
  cases hft : find_time now.time second minute hour with
  | panicked => rw [hft] at hr; simp at hr
  | picked t off =>
    simp only [hft] at hr
    cases hfd : find_date weekday day month (now.date + (off : Int)) LOOKAHEAD with
    | none => simp only [hfd] at hr; simp at hr
    | some d =>
      simp only [hfd, FindResult.found.injEq] at hr
      subst hr
      obtain ⟨hmem1, hmem2, hmem3, hoff⟩ := find_time_picked hft
      obtain ⟨hge, _, hmatch⟩ := find_date_some hfd
      obtain ⟨hw, hd, hmo⟩ := matchesDate_mem hmatch
      refine ⟨?_, hmem1, hmem2, hmem3, hw, hd, hmo⟩
      simp only [NDateTime.leb, Bool.or_eq_true, Bool.and_eq_true, decide_eq_true_eq]
      rcases hoff with ⟨rfl, hlt⟩ | rfl
      · simp only [Nat.cast_zero, add_zero] at hge
        omega
      · simp only [Nat.cast_one] at hge
        omega

/-- Claim C1 witness: the rule hour={3}, minute={0}, second={0} with wildcard
date fields, evaluated at 12:00:00 of day 19358 (2023-01-01). -/
theorem on_rule_result_bounds_witness :
    NDateTime.leb ⟨19358, ⟨12, 0, 0⟩⟩ ⟨19359, ⟨3, 0, 0⟩⟩ = true ∧
    (3 : Nat) ∈ [3] ∧ (0 : Nat) ∈ [0] ∧ (0 : Nat) ∈ [0] ∧
    (([] : List Nat) ≠ [] → weekdayOf 19359 ∈ ([] : List Nat)) ∧
    (([] : List Nat) ≠ [] → dayOf 19359 ∈ ([] : List Nat)) ∧
    (([] : List Nat) ≠ [] → monthOf 19359 ∈ ([] : List Nat)) :=
  on_rule_result_bounds ⟨19358, ⟨12, 0, 0⟩⟩ [0] [0] [3] [] [] [] ⟨19359, ⟨3, 0, 0⟩⟩ (by decide)

/-- Claim C4: the date phase scans at most 366×4×7 = 10248 consecutive days
from the candidate date, and `find_next_datetime` fails with the
no-occurrence-found error exactly when no date within that horizon satisfies
the weekday / day-of-month / month constraints; the search (a bounded total
function) always terminates. -/
theorem date_phase_exhaustion (now : NDateTime) (second minute hour weekday day month : List Nat)
    (t : NTime) (off : Nat)
    (hp : find_time now.time second minute hour = .picked t off) :
    LOOKAHEAD = 10248 ∧
    (find_next_datetime now second minute hour weekday day month = .noOccurrence ↔
      ∀ i : Nat, i < LOOKAHEAD →
        matchesDate weekday day month (now.date + (off : Int) + (i : Int)) = false) := by
  refine ⟨rfl, ?_⟩
  rw [find_next_datetime]
  simp only [hp]
  cases hfd : find_date weekday day month (now.date + (off : Int)) LOOKAHEAD with
  | none =>
    simp only [hfd, true_iff]
    exact find_date_none_iff.mp hfd
  | some x =>
    simp only [hfd, reduceCtorEq, false_iff, not_forall]
    obtain ⟨h1, h2, h3⟩ := find_date_some hfd
    refine ⟨(x - (now.date + (off : Int))).toNat, by omega, ?_⟩
    have harith : now.date + (off : Int) + ((x - (now.date + (off : Int))).toNat : Int) = x := by
      omega
    rw [harith, h3]
    simp

/-- Claim C4 witness: the rule hour={0}, minute={0}, second={0} (so the time
phase picks 00:00:00 the next day) instantiated at 12:00:00 of day 19358. -/
theorem date_phase_exhaustion_witness :
    LOOKAHEAD = 10248 ∧
    (find_next_datetime ⟨19358, ⟨12, 0, 0⟩⟩ [0] [0] [0] [] [31] [2] = .noOccurrence ↔
      ∀ i : Nat, i < LOOKAHEAD →
        matchesDate [] [31] [2] ((19358 : Int) + ((1 : Nat) : Int) + (i : Int)) = false) :=
  date_phase_exhaustion ⟨19358, ⟨12, 0, 0⟩⟩ [0] [0] [0] [] [31] [2] ⟨0, 0, 0⟩ 1 (by decide)

/-- Claim C10: for non-empty, in-range second / minute / hour field-sets (the
shape the configuration layer always produces), `find_next_datetime` never
panics: the slice indexing and every `from_hms` call succeed, and the function
returns an instant or the no-occurrence-found error. -/
theorem find_next_datetime_total (now : NDateTime) (second minute hour weekday day month : List Nat)
    (hs : second ≠ []) (hm : minute ≠ []) (hh : hour ≠ [])
    (hs60 : ∀ s ∈ second, s < 60) (hm60 : ∀ m ∈ minute, m < 60) (hh24 : ∀ h ∈ hour, h < 24) :
    (∃ r, find_next_datetime now second minute hour weekday day month = .found r) ∨
      find_next_datetime now second minute hour weekday day month = .noOccurrence := by
  obtain ⟨t, off, hft⟩ :=
    @find_time_no_panic now.time second minute hour hs hm hh hs60 hm60 hh24
  rw [find_next_datetime]
  simp only [hft]
  cases hfd : find_date weekday day month (now.date + (off : Int)) LOOKAHEAD with
  | none => exact Or.inr rfl
  | some d => exact Or.inl ⟨⟨d, t⟩, rfl⟩

/-- Claim C10 witness: an impossible rule (day 31 in February) with in-range
time sets; the function returns (the no-occurrence error) rather than
panicking. -/
theorem find_next_datetime_total_witness :
    (∃ r, find_next_datetime ⟨19358, ⟨12, 0, 0⟩⟩ [0] [30] [6] [] [31] [2] = .found r) ∨
      find_next_datetime ⟨19358, ⟨12, 0, 0⟩⟩ [0] [30] [6] [] [31] [2] = .noOccurrence :=
  find_next_datetime_total ⟨19358, ⟨12, 0, 0⟩⟩ [0] [30] [6] [] [31] [2]
    (by decide) (by decide) (by decide) (by decide) (by decide) (by decide)

theorem leb_refl (a : NDateTime) : a.leb a = true := by
  simp [NDateTime.leb]

theorem leb_trans {a b c : NDateTime} (h1 : a.leb b = true) (h2 : b.leb c = true) :
    a.leb c = true := by
  simp only [NDateTime.leb, Bool.or_eq_true, Bool.and_eq_true, decide_eq_true_eq] at h1 h2 ⊢
  rcases h1 with h1 | ⟨h1e, h1s⟩ <;> rcases h2 with h2 | ⟨h2e, h2s⟩
  · exact Or.inl (by omega)
  · exact Or.inl (by omega)
  · exact Or.inl (by omega)
  · exact Or.inr ⟨by omega, by omega⟩

theorem cmp_lt_iff (x y : QueuedTask) :
    QueuedTask.cmp x y = .lt ↔
      (y.time.date < x.time.date ∨
        (y.time.date = x.time.date ∧ y.time.time.toSecs < x.time.time.toSecs)) := by
  unfold QueuedTask.cmp NDateTime.cmp cmpI cmpN
  rcases lt_trichotomy x.time.date y.time.date with h | h | h
  · rw [if_pos h]
    simp only [Ordering.swap]
    constructor
    · intro hc; cases hc
    · intro hc; omega
  · rw [if_neg (by omega), if_neg (by omega)]
    by_cases h2 : x.time.time.toSecs < y.time.time.toSecs
    · rw [if_pos h2]
      simp only [Ordering.swap]
      constructor
      · intro hc; cases hc
      · intro hc; omega
    · rw [if_neg h2]
      by_cases h3 : y.time.time.toSecs < x.time.time.toSecs
      · rw [if_pos h3]
        simp only [Ordering.swap]
        exact ⟨fun _ => Or.inr ⟨by omega, h3⟩, fun _ => trivial⟩
      · rw [if_neg h3]
        simp only [Ordering.swap]
        constructor
        · intro hc; cases hc
        · intro hc; omega
  · rw [if_neg (by omega), if_pos h]
    simp only [Ordering.swap]
    exact ⟨fun _ => Or.inl h, fun _ => trivial⟩

theorem cmp_lt_le {x y : QueuedTask} (h : QueuedTask.cmp x y = .lt) :
    y.time.leb x.time = true := by
  rw [cmp_lt_iff] at h
  simp only [NDateTime.leb, Bool.or_eq_true, Bool.and_eq_true, decide_eq_true_eq]
  rcases h with h | ⟨h1, h2⟩
  · exact Or.inl h
  · exact Or.inr ⟨h1, by omega⟩

theorem cmp_not_lt_le {x y : QueuedTask} (h : ¬ QueuedTask.cmp x y = .lt) :
    x.time.leb y.time = true := by
  rw [cmp_lt_iff] at h
  simp only [NDateTime.leb, Bool.or_eq_true, Bool.and_eq_true, decide_eq_true_eq]
  by_cases hd : x.time.date = y.time.date
  · refine Or.inr ⟨hd, ?_⟩
    by_contra hs
    exact h (Or.inr ⟨hd.symm, by omega⟩)
  · refine Or.inl ?_
    by_contra hlt
    exact h (Or.inl (by omega))

theorem popMin_none {l : List QueuedTask} : popMin l = none ↔ l = [] := by
  cases l with
  | nil => simp [popMin]
  | cons x xs =>
    rw [popMin]
    cases h : popMin xs with
    | none => simp
    | some p =>
      obtain ⟨y, ys⟩ := p
      by_cases hc : QueuedTask.cmp x y = .lt <;> simp [hc]

theorem popMin_perm :
    ∀ {l : List QueuedTask} {e : QueuedTask} {rest : List QueuedTask},
      popMin l = some (e, rest) → l.Perm (e :: rest) := by
  intro l
  induction l with
  | nil => intro e rest h; simp [popMin] at h
  | cons x xs ih =>
    intro e rest h
    rw [popMin] at h
    cases hx : popMin xs with
    | none =>
      simp only [hx, Option.some.injEq, Prod.mk.injEq] at h
      obtain ⟨rfl, rfl⟩ := h
      rw [popMin_none.mp hx]
    | some p =>
      obtain ⟨y, ys⟩ := p
      simp only [hx] at h
      by_cases hc : QueuedTask.cmp x y = .lt
      · rw [if_pos hc] at h
        simp only [Option.some.injEq, Prod.mk.injEq] at h
        obtain ⟨rfl, rfl⟩ := h
        exact ((ih hx).cons x).trans (List.Perm.swap y x ys)
      · rw [if_neg hc] at h
        simp only [Option.some.injEq, Prod.mk.injEq] at h
        obtain ⟨rfl, rfl⟩ := h
        exact List.Perm.refl _

theorem popMin_min :
    ∀ {l : List QueuedTask} {e : QueuedTask} {rest : List QueuedTask},
      popMin l = some (e, rest) → ∀ x ∈ l, e.time.leb x.time = true := by
  intro l
  induction l with
  | nil => intro e rest h; simp [popMin] at h
  | cons a xs ih =>
    intro e rest h z hz
    rw [popMin] at h
    cases hx : popMin xs with
    | none =>
      simp only [hx, Option.some.injEq, Prod.mk.injEq] at h
      obtain ⟨rfl, rfl⟩ := h
      rw [popMin_none.mp hx] at hz
      rcases List.mem_cons.mp hz with rfl | hz2
      · exact leb_refl _
      · cases hz2
    | some p =>
      obtain ⟨y, ys⟩ := p
      simp only [hx] at h
      by_cases hc : QueuedTask.cmp a y = .lt
      · rw [if_pos hc] at h
        simp only [Option.some.injEq, Prod.mk.injEq] at h
        obtain ⟨rfl, rfl⟩ := h
        rcases List.mem_cons.mp hz with rfl | hz2
        · exact cmp_lt_le hc
        · exact ih hx z hz2
      · rw [if_neg hc] at h
        simp only [Option.some.injEq, Prod.mk.injEq] at h
        obtain ⟨rfl, rfl⟩ := h
        rcases List.mem_cons.mp hz with rfl | hz2
        · exact leb_refl _
        · exact leb_trans (cmp_not_lt_le hc) (ih hx z hz2)

theorem drainAux_spec :
    ∀ (n : Nat) (l : List QueuedTask), l.length ≤ n →
      List.Chain' (fun a b => NDateTime.leb a b = true) (drainAux n l) ∧
      (drainAux n l).Perm (l.map QueuedTask.time) := by
  intro n
  induction n with
  | zero =>
    intro l hl
    have : l = [] := List.length_eq_zero.mp (by omega)
    subst this
    simp [drainAux]
  | succ k ih =>
    intro l hl
    rw [drainAux]
    cases hp : popMin l with
    | none =>
      rw [popMin_none.mp hp]
      simp
    | some p =>
      obtain ⟨e, rest⟩ := p
      have hperm := popMin_perm hp
      have hlen : l.length = rest.length + 1 := by simpa using hperm.length_eq
      obtain ⟨hch, hpm⟩ := ih rest (by omega)
      constructor
      · rw [List.chain'_cons']
        refine ⟨?_, hch⟩
        intro b hb
        have hbmem : b ∈ drainAux k rest := List.mem_of_mem_head? hb
        obtain ⟨x, hx, rfl⟩ := List.mem_map.mp (hpm.subset hbmem)
        exact popMin_min hp x (hperm.symm.subset (List.mem_cons_of_mem e hx))
      · refine (hpm.cons e.time).trans ?_
        have := (hperm.map QueuedTask.time).symm
        simpa using this

/-- Claim C2: for every queue state (any multiset of entries produced by any
sequence of pushes), `try_pop` removes and returns the task with the smallest
pending instant when the queue is non-empty, returns none when it is empty,
and draining the queue by repeated `try_pop` yields all the entries' instants
in non-decreasing order. -/
theorem queue_pop_order (l : List QueuedTask) :
    (Queue.try_pop l = none ↔ l = []) ∧
    (∀ e rest, popMin l = some (e, rest) →
      Queue.try_pop l = some (e.task, rest) ∧
      (∀ x ∈ l, e.time.leb x.time = true) ∧ l.Perm (e :: rest)) ∧
    List.Chain' (fun a b => NDateTime.leb a b = true) (drainTimes l) ∧
    (drainTimes l).Perm (l.map QueuedTask.time) := by
  refine ⟨?_, ?_, ?_, ?_⟩
  · rw [Queue.try_pop, Option.map_eq_none', popMin_none]
  · intro e rest h
    exact ⟨by rw [Queue.try_pop, h]; rfl, popMin_min h, popMin_perm h⟩
  · exact (drainAux_spec l.length l (le_refl _)).1
  · exact (drainAux_spec l.length l (le_refl _)).2

/-- Claim C2 witness: a two-entry queue; the pop returns the entry with the
smaller instant (00:00:03) leaving the other, and the drained instants are
non-decreasing and a permutation of the entries' instants. -/
theorem queue_pop_order_witness :
    Queue.try_pop ([⟨⟨0, ⟨0, 0, 5⟩⟩, 1⟩, ⟨⟨0, ⟨0, 0, 3⟩⟩, 2⟩] : List QueuedTask) =
      some (2, [⟨⟨0, ⟨0, 0, 5⟩⟩, 1⟩]) ∧
    (∀ x ∈ ([⟨⟨0, ⟨0, 0, 5⟩⟩, 1⟩, ⟨⟨0, ⟨0, 0, 3⟩⟩, 2⟩] : List QueuedTask),
      NDateTime.leb ⟨0, ⟨0, 0, 3⟩⟩ x.time = true) ∧
    List.Chain' (fun a b => NDateTime.leb a b = true)
      (drainTimes ([⟨⟨0, ⟨0, 0, 5⟩⟩, 1⟩, ⟨⟨0, ⟨0, 0, 3⟩⟩, 2⟩] : List QueuedTask)) := by
  have h := queue_pop_order ([⟨⟨0, ⟨0, 0, 5⟩⟩, 1⟩, ⟨⟨0, ⟨0, 0, 3⟩⟩, 2⟩] : List QueuedTask)
  have h2 := h.2.1 ⟨⟨0, ⟨0, 0, 3⟩⟩, 2⟩ [⟨⟨0, ⟨0, 0, 5⟩⟩, 1⟩] (by decide)
  exact ⟨h2.1, h2.2.1, h.2.2.1⟩

theorem eventsOrdered_of_split (early late : REvent → Bool) (l1 l2 : List REvent)
    {l : List REvent}
    (hl : l = l1 ++ l2) (h1 : ∀ e ∈ l1, late e = false) (h2 : ∀ e ∈ l2, early e = false) :
    eventsOrdered early late l := by
  intro pre post heq hlate hearly
  obtain ⟨x, hx, hxl⟩ := List.any_eq_true.mp hlate
  obtain ⟨y, hy, hyl⟩ := List.any_eq_true.mp hearly
  have hcat : pre ++ post = l1 ++ l2 := heq.symm.trans hl
  by_cases hn : pre.length ≤ l1.length
  · have hpre : pre = l1.take pre.length := by
      have h0 : (pre ++ post).take pre.length = pre := List.take_left pre post
      rw [hcat, List.take_append_eq_append_take] at h0
      have hz : pre.length - l1.length = 0 := by omega
      rw [hz] at h0
      simpa using h0.symm
    have hmem : x ∈ l1 := List.take_subset _ _ (hpre ▸ hx)
    rw [h1 x hmem] at hxl
    cases hxl
  · have hpost : post = l2.drop (pre.length - l1.length) := by
      have h0 : (pre ++ post).drop pre.length = post := List.drop_left pre post
      rw [hcat, List.drop_append_eq_append_drop] at h0
      rw [List.drop_eq_nil_of_le (by omega)] at h0
      simpa using h0.symm
    have hmem : y ∈ l2 := List.drop_subset _ _ (hpost ▸ hy)
    rw [h2 y hmem] at hyl
    cases hyl

theorem mem_rearmEvents {t : Time} {now : NDateTime} {e : REvent}
    (h : e ∈ rearmEvents t now) : (∃ dt, e = .push dt) ∨ e = .rearmFailed := by
  rw [rearmEvents] at h
  cases hnr : t.next_run now with
  | panic => simp only [hnr] at h; simp at h; exact Or.inr h
  | noOccurrence => simp only [hnr] at h; simp at h; exact Or.inr h
  | found next => simp only [hnr] at h; simp at h; exact Or.inl ⟨next, h⟩

theorem mem_spawnEvents {spawnOk waitOk : Bool} {e : REvent}
    (h : e ∈ spawnEvents spawnOk waitOk) : isPush e = false := by
  cases spawnOk <;> cases waitOk <;> simp [spawnEvents] at h
  · subst h; rfl
  · subst h; rfl
  · rcases h with rfl | rfl <;> rfl
  · rcases h with rfl | rfl <;> rfl

/-- Claim C5: in the execution unit, the re-arm (computing `next_run` and
pushing the result) happens before the `spawn` call when the rule is `On` or
`Every` (every push precedes the spawn attempt), and for `After` rules it
happens only after the child process has exited — and the pushed instant is
`tPost + d`, the wall clock at the post-wait re-arm plus the duration, i.e.
the delay is measured from completion of the run. -/
theorem rearm_order (time : Time) (tPre tPost : NDateTime) (spawnOk waitOk : Bool) :
    (time.isAfterRule = false →
      eventsOrdered isPush isSpawnAttempt (runTrace time tPre tPost spawnOk waitOk)) ∧
    (∀ d, time = Time.after d → spawnOk = true → waitOk = true →
      REvent.exited ∈ runTrace time tPre tPost spawnOk waitOk ∧
      pushedTimes (runTrace time tPre tPost spawnOk waitOk) = [tPost.addSecs d] ∧
      eventsOrdered isExited isPush (runTrace time tPre tPost spawnOk waitOk)) := by
  constructor
  · intro hna
    rcases time with ⟨s, m, h, w, dy, mo⟩ | ⟨d⟩ | ⟨d⟩
    · refine eventsOrdered_of_split isPush isSpawnAttempt
        (REvent.logRunning :: rearmEvents (Time.on s m h w dy mo) tPre)
        (spawnEvents spawnOk waitOk) (by simp [runTrace]) ?_ ?_
      · intro e he
        rcases List.mem_cons.mp he with rfl | he2
        · rfl
        · rcases mem_rearmEvents he2 with ⟨dt, rfl⟩ | rfl <;> rfl
      · intro e he
        exact mem_spawnEvents he
    · refine eventsOrdered_of_split isPush isSpawnAttempt
        (REvent.logRunning :: rearmEvents (Time.every d) tPre)
        (spawnEvents spawnOk waitOk) (by simp [runTrace]) ?_ ?_
      · intro e he
        rcases List.mem_cons.mp he with rfl | he2
        · rfl
        · rcases mem_rearmEvents he2 with ⟨dt, rfl⟩ | rfl <;> rfl
      · intro e he
        exact mem_spawnEvents he
    · simp [Time.isAfterRule] at hna
  · rintro d rfl rfl rfl
    refine ⟨by simp [runTrace, spawnEvents], ?_, ?_⟩
    · simp [runTrace, spawnEvents, rearmEvents, Time.next_run, pushedTimes]
    · refine eventsOrdered_of_split isExited isPush
        ([REvent.logRunning, REvent.spawned, REvent.exited])
        (rearmEvents (Time.after d) tPost)
        (by simp [runTrace, spawnEvents]) (by decide) ?_
      intro e he
      rcases mem_rearmEvents he with ⟨dt, rfl⟩ | rfl <;> rfl

/-- Claim C5 witness: an `Every {5s}` trace has its push before the spawn, and
an `After {5s}` trace (successful spawn and wait) pushes completion + 5s after
the exit event. -/
theorem rearm_order_witness :
    eventsOrdered isPush isSpawnAttempt
      (runTrace (Time.every 5) ⟨0, ⟨12, 0, 0⟩⟩ ⟨0, ⟨12, 0, 9⟩⟩ true true) ∧
    (REvent.exited ∈ runTrace (Time.after 5) ⟨0, ⟨12, 0, 0⟩⟩ ⟨0, ⟨12, 0, 9⟩⟩ true true ∧
      pushedTimes (runTrace (Time.after 5) ⟨0, ⟨12, 0, 0⟩⟩ ⟨0, ⟨12, 0, 9⟩⟩ true true) =
        [NDateTime.addSecs ⟨0, ⟨12, 0, 9⟩⟩ 5] ∧
      eventsOrdered isExited isPush
        (runTrace (Time.after 5) ⟨0, ⟨12, 0, 0⟩⟩ ⟨0, ⟨12, 0, 9⟩⟩ true true)) :=
  ⟨(rearm_order (Time.every 5) ⟨0, ⟨12, 0, 0⟩⟩ ⟨0, ⟨12, 0, 9⟩⟩ true true).1 (by decide),
   (rearm_order (Time.after 5) ⟨0, ⟨12, 0, 0⟩⟩ ⟨0, ⟨12, 0, 9⟩⟩ true true).2 5 rfl rfl rfl⟩

/-- Claim C6 counterexample: for an `After {5s}` task whose spawn fails, the
trace still contains a push after the spawn-failure event — the execution unit
does not stop, contradicting the claim that no push occurs after a spawn
failure for every timing discipline. -/
theorem spawn_failure_push_cex :
    ¬ eventsOrdered isPush isSpawnFailed
        (runTrace (Time.after 5) ⟨0, ⟨0, 0, 0⟩⟩ ⟨0, ⟨0, 0, 7⟩⟩ false true) := by
  intro h
  exact h [REvent.logRunning, REvent.spawnFailed] [REvent.push ⟨0, ⟨0, 0, 12⟩⟩]
    (by decide) (by decide) (by decide)

/-- Claim C6 (amended): on spawn failure the unit logs and skips waiting; for
`On` and `Every` rules no push occurs after the spawn failure (their re-arm
already happened before the spawn), but for an `After` rule the re-arm still
runs after the failed spawn and pushes `tPost + d`. -/
theorem spawn_failure_rearm (time : Time) (tPre tPost : NDateTime) (waitOk : Bool) :
    (time.isAfterRule = false →
      eventsOrdered isPush isSpawnFailed (runTrace time tPre tPost false waitOk)) ∧
    (∀ d, time = Time.after d →
      ∃ pre post, runTrace time tPre tPost false waitOk = pre ++ post ∧
        REvent.spawnFailed ∈ pre ∧ REvent.push (tPost.addSecs d) ∈ post) := by
  constructor
  · intro hna
    rcases time with ⟨s, m, h, w, dy, mo⟩ | ⟨d⟩ | ⟨d⟩
    · refine eventsOrdered_of_split isPush isSpawnFailed
        (REvent.logRunning :: rearmEvents (Time.on s m h w dy mo) tPre)
        (spawnEvents false waitOk) (by simp [runTrace]) ?_ ?_
      · intro e he
        rcases List.mem_cons.mp he with rfl | he2
        · rfl
        · rcases mem_rearmEvents he2 with ⟨dt, rfl⟩ | rfl <;> rfl
      · intro e he
        exact mem_spawnEvents he
    · refine eventsOrdered_of_split isPush isSpawnFailed
        (REvent.logRunning :: rearmEvents (Time.every d) tPre)
        (spawnEvents false waitOk) (by simp [runTrace]) ?_ ?_
      · intro e he
        rcases List.mem_cons.mp he with rfl | he2
        · rfl
        · rcases mem_rearmEvents he2 with ⟨dt, rfl⟩ | rfl <;> rfl
      · intro e he
        exact mem_spawnEvents he
    · simp [Time.isAfterRule] at hna
  · rintro d rfl
    refine ⟨[REvent.logRunning, REvent.spawnFailed], [REvent.push (tPost.addSecs d)], ?_, ?_, ?_⟩
    · simp [runTrace, spawnEvents, rearmEvents, Time.next_run]
    · simp
    · simp

/-- Claim C6 witness (for the amended claim): an `On`-rule trace with failed
spawn has no push after the failure, and a concrete `After {5s}` trace with
failed spawn still pushes 00:00:12 = tPost + 5s after the failure event. -/
theorem spawn_failure_rearm_witness :
    eventsOrdered isPush isSpawnFailed
      (runTrace (Time.on [0] [0] [3] [] [] []) ⟨19358, ⟨12, 0, 0⟩⟩ ⟨19358, ⟨12, 0, 2⟩⟩
        false true) ∧
    (∃ pre post,
      runTrace (Time.after 5) ⟨0, ⟨0, 0, 0⟩⟩ ⟨0, ⟨0, 0, 7⟩⟩ false true = pre ++ post ∧
        REvent.spawnFailed ∈ pre ∧
        REvent.push (NDateTime.addSecs ⟨0, ⟨0, 0, 7⟩⟩ 5) ∈ post) :=
  ⟨(spawn_failure_rearm (Time.on [0] [0] [3] [] [] []) ⟨19358, ⟨12, 0, 0⟩⟩
      ⟨19358, ⟨12, 0, 2⟩⟩ true).1 (by decide),
   (spawn_failure_rearm (Time.after 5) ⟨0, ⟨0, 0, 0⟩⟩ ⟨0, ⟨0, 0, 7⟩⟩ true).2 5 rfl⟩

/-- Claim C7 counterexample: an entry whose instant equals the current
wall-clock instant satisfies peek ≤ now, yet the dispatcher does not pop it —
main.rs line 73 compares with strict `<`, so the loop exits and sleeps (the
clamped minimum, 1000 ms). -/
theorem dispatch_due_equal_cex :
    NDateTime.leb ⟨0, ⟨10, 0, 0⟩⟩ ⟨0, ⟨10, 0, 0⟩⟩ = true ∧
    dispatcherStep [⟨⟨0, ⟨10, 0, 0⟩⟩, 7⟩] ⟨0, ⟨10, 0, 0⟩⟩ =
      some (DispatchStep.sleepFor 1000) := by
  decide

/-- Claim C7 (amended): in every dispatcher iteration on a non-empty queue, if
the peeked earliest instant is strictly less than the current wall-clock time
the dispatcher pops that minimal entry and dispatches it without sleeping;
when the peeked instant is ≥ now (including equality) it sleeps instead. -/
theorem dispatch_strictly_due (q : List QueuedTask) (now : NDateTime) (e : QueuedTask)
    (rest : List QueuedTask) (hp : popMin q = some (e, rest)) :
    (e.time.ltb now = true → dispatcherStep q now = some (.dispatch e rest)) ∧
    (e.time.ltb now = false →
      dispatcherStep q now = some (.sleepFor (sleepMs e.time now))) := by
  constructor <;> intro h <;> simp [dispatcherStep, hp, h]

/-- Claim C7 witness: a singleton queue due at 10:00:00 with now = 10:00:01 is
dispatched without sleeping. -/
theorem dispatch_strictly_due_witness :
    dispatcherStep [⟨⟨0, ⟨10, 0, 0⟩⟩, 7⟩] ⟨0, ⟨10, 0, 1⟩⟩ =
      some (DispatchStep.dispatch ⟨⟨0, ⟨10, 0, 0⟩⟩, 7⟩ []) :=
  (dispatch_strictly_due [⟨⟨0, ⟨10, 0, 0⟩⟩, 7⟩] ⟨0, ⟨10, 0, 1⟩⟩ ⟨⟨0, ⟨10, 0, 0⟩⟩, 7⟩ []
    (by decide)).1 (by decide)

/-- Claim C8 counterexample: an `Every {5s}` task scheduled for 12:00:00 whose
execution unit starts at 12:00:02 re-arms for 12:00:07 = worker-start + 5s,
not 12:00:05 = scheduled instant + 5s: the re-arm is anchored to the
`Local::now()` sample at re-arm time (`try_pop` discards the scheduled
instant), not to the scheduled instant. -/
theorem every_rearm_cex :
    pushedTimes (runTrace (Time.every 5) ⟨0, ⟨12, 0, 2⟩⟩ ⟨0, ⟨12, 0, 4⟩⟩ true true) ≠
      [NDateTime.addSecs ⟨0, ⟨12, 0, 0⟩⟩ 5] := by
  decide

/-- Claim C8 (amended): for an `Every {d}` rule, the re-armed next occurrence
equals the wall-clock instant sampled at the start of the execution unit
(before spawning) plus d — for every completion instant and every spawn/wait
outcome, so the period does not depend on execution time, though it is
anchored to the worker-start instant rather than the scheduled instant. -/
theorem every_rearm_anchor (d : Int) (tPre tPost : NDateTime) (spawnOk waitOk : Bool) :
    pushedTimes (runTrace (Time.every d) tPre tPost spawnOk waitOk) = [tPre.addSecs d] := by
  cases spawnOk <;> cases waitOk <;>
    simp [runTrace, spawnEvents, rearmEvents, Time.next_run, pushedTimes]

theorem wpInv_step (e : QueuedTask) (s : SysState) (hinv : wpInv e s) (who : Bool) :
    wpInv e (sysStep e s who) := by
  rcases hinv with h | h | h | h | h | h | h | h | h <;> subst h <;> cases who <;>
    simp [wpInv, waitInit, sysStep, cstep, pstep, minTimeOf, popMin]

theorem wpInv_run (e : QueuedTask) (sched : List Bool) :
    ∀ s, wpInv e s → wpInv e (sysRun e sched s) := by
  induction sched with
  | nil => intro s hs; exact hs
  | cons who rest ih =>
    intro s hs
    rw [sysRun, List.foldl_cons]
    exact ih _ (wpInv_step e s hs who)

theorem wpInv_done_run4 (e : QueuedTask) (s : SysState) (hinv : wpInv e s)
    (hd : s.ppc = .pDone) :
    sysRun e [false, false, false, false] s =
      { heap := [e], lock := .free, cpc := .returned, woken := false, ppc := .pDone,
        result := some e.time } := by
  rcases hinv with h | h | h | h | h | h | h | h | h <;> subst h <;>
    first
    | rfl
    | simp [waitInit] at hd

/-- Claim C9: with the consumer parked in `wait_peek` on an empty queue and a
producer running `push`, in every interleaving: once the producer has
completed, four further consumer steps suffice for the consumer to be woken,
reacquire the lock, recheck, and return the smallest pending instant (the
pushed one); and in every interleaving, any value the consumer returns is that
smallest pending instant — the push is never missed. -/
theorem wait_peek_no_lost_wakeup (e : QueuedTask) (sched : List Bool)
    (hdone : (sysRun e sched waitInit).ppc = PPC.pDone) :
    (sysRun e (sched ++ [false, false, false, false]) waitInit).result = some e.time ∧
    ∀ v, (sysRun e sched waitInit).result = some v → v = e.time := by
  have hinv := wpInv_run e sched waitInit (Or.inl rfl)
  constructor
  · have hsplit : sysRun e (sched ++ [false, false, false, false]) waitInit
        = sysRun e [false, false, false, false] (sysRun e sched waitInit) := by
      rw [sysRun, sysRun, sysRun, List.foldl_append]
    rw [hsplit, wpInv_done_run4 e _ hinv hdone]
  · intro v hv
    rcases hinv with h | h | h | h | h | h | h | h | h <;> rw [h] at hv <;> simp [waitInit] at hv
    exact hv.symm

/-- Claim C9 witness: the producer runs its four steps, then the consumer its
four; the consumer returns the pushed instant 00:00:05. -/
theorem wait_peek_no_lost_wakeup_witness :
    (sysRun ⟨⟨0, ⟨0, 0, 5⟩⟩, 1⟩ ([true, true, true, true] ++ [false, false, false, false])
        waitInit).result = some (⟨0, ⟨0, 0, 5⟩⟩ : NDateTime) ∧
    ∀ v, (sysRun ⟨⟨0, ⟨0, 0, 5⟩⟩, 1⟩ [true, true, true, true] waitInit).result = some v →
      v = ⟨0, ⟨0, 0, 5⟩⟩ :=
  wait_peek_no_lost_wakeup ⟨⟨0, ⟨0, 0, 5⟩⟩, 1⟩ [true, true, true, true] (by decide)

end Ocron






